import Mathlib

/-!
# Verification development for `script.js`

A shallow embedding of the client-side script: the theme store and applier,
the typewriter effect, the intersection-based reveal, the timeline progress
tracker and the contact-form validator and submitter.

Conventions of the embedding.

* The DOM is explicit state. Each behaviour acts on a record holding exactly
  the attributes, classes and values the source reads or writes.
* JavaScript strings are `String` (sequences of Unicode scalar values) except
  in the typewriter, which works on UTF-16 code units because the source
  splits its text with `split("")`.
* A property read on a plain object literal follows the prototype chain, so
  `themes[k]` is modelled with the own keys first and the keys of
  `Object.prototype` next.
* The numbers of the timeline are IEEE 754 doubles, each taken as the rational
  it denotes. The viewport height is an integer; the product with `0.6` and
  the final division round to the nearest double, ties to even.
-/

namespace Script

/-! ## JavaScript values and truthiness -/

/-- The JavaScript values a property read on `themes` can produce. -/
inductive JSValue where
  | undefined : JSValue
  | string : String → JSValue
  | function : JSValue
  | object : JSValue
  deriving DecidableEq, Repr

/-- The `ToBoolean` conversion on the values above. -/
def JSValue.truthy : JSValue → Bool
  | .undefined => false
  | .string s => s != ""
  | .function => true
  | .object => true

/-! ## Theme store and applier -/

/-- The constant `THEME_KEY`. -/
def THEME_KEY : String := "luminaverse-theme"

/-- The own enumerable keys of the object literal `themes`, with their values. -/
def themesOwn : List (String × String) :=
  [("safari", "safari"), ("dark", "dark"), ("luminaverse", "luminaverse")]

/-- The method names every plain object inherits from `Object.prototype`. -/
def objectPrototypeMethods : List String :=
  ["constructor", "hasOwnProperty", "isPrototypeOf", "propertyIsEnumerable",
   "toLocaleString", "toString", "valueOf", "__defineGetter__", "__defineSetter__",
   "__lookupGetter__", "__lookupSetter__"]

/-- The property read `themes[k]`: own keys of the literal first, then the
prototype chain (`Object.prototype`), then `undefined`. -/
def themes (k : String) : JSValue :=
  match themesOwn.lookup k with
  | some v => .string v
  | none =>
    if k ∈ objectPrototypeMethods then .function
    else if k = "__proto__" then .object
    else .undefined

/-- The allowed theme set of the specification. -/
def allowedThemes : List String := ["safari", "dark", "luminaverse"]

/-- A theme-toggle control: its `data-theme-toggle` value and its
`aria-pressed` attribute. -/
structure Button where
  themeToggle : String
  ariaPressed : Option String
  deriving DecidableEq, Repr

/-- The part of the page and of the browser the theme code touches. -/
structure Page where
  rootTheme : Option String
  bodyTheme : Option String
  themeButtons : List Button
  localStorage : String → Option String

/-- The call `localStorage.setItem(k, v)`. -/
def setItem (store : String → Option String) (k v : String) : String → Option String :=
  fun q => if q = k then some v else store q

/-- The call `localStorage.getItem(k)`; `none` stands for `null`. -/
def getItem (store : String → Option String) (k : String) : Option String :=
  store k

/-- The expression `themes[theme] ? theme : themes.safari`. -/
def resolveTheme (theme : String) : String :=
  if (themes theme).truthy then theme else "safari"

/-- The function `applyTheme`. -/
def applyTheme (theme : String) (p : Page) : Page :=
  let nextTheme := resolveTheme theme
  { rootTheme := some nextTheme
    bodyTheme := some nextTheme
    themeButtons := p.themeButtons.map fun btn =>
      let isActive := decide (btn.themeToggle = nextTheme)
      { btn with ariaPressed := some (toString isActive) }
    localStorage := setItem p.localStorage THEME_KEY nextTheme }

/-- The function `loadTheme`. -/
def loadTheme (p : Page) : Page :=
  match getItem p.localStorage THEME_KEY with
  | some stored =>
    if stored != "" && (themes stored).truthy then applyTheme stored p
    else applyTheme "safari" p
  | none => applyTheme "safari" p

/-- A page with one toggle control per allowed theme, nothing stored. -/
def samplePage : Page :=
  { rootTheme := none
    bodyTheme := none
    themeButtons := [⟨"safari", none⟩, ⟨"dark", none⟩, ⟨"luminaverse", none⟩]
    localStorage := fun _ => none }

/-- The pressed controls of a page: those whose `aria-pressed` is `"true"`. -/
def pressedButtons (p : Page) : List Button :=
  p.themeButtons.filter fun b => b.ariaPressed == some "true"

/-- A page like `samplePage` whose storage holds `"constructor"` under the
theme key. -/
def storedConstructorPage : Page :=
  { samplePage with
    localStorage := fun k => if k = "luminaverse-theme" then some "constructor" else none }

/-- A freshly loaded page: markup as served (theme `safari` on root and body,
the first control pressed), storage as `applyTheme("dark")` left it on the
sample page. -/
def reloadedPage : Page :=
  { rootTheme := some "safari"
    bodyTheme := some "safari"
    themeButtons := [⟨"safari", some "true"⟩, ⟨"dark", some "false"⟩,
      ⟨"luminaverse", some "false"⟩]
    localStorage := (applyTheme "dark" samplePage).localStorage }

/-! ## Strings: whitespace, trimming, percent-encoding -/

/-- The code points matched by `\s` and stripped by `String.prototype.trim`:
the ECMAScript `WhiteSpace` and `LineTerminator` productions. -/
def isJsWhiteSpace (c : Char) : Bool :=
  let n := c.toNat
  n == 0x09 || n == 0x0A || n == 0x0B || n == 0x0C || n == 0x0D || n == 0x20 ||
  n == 0xA0 || n == 0x1680 || (0x2000 ≤ n && n ≤ 0x200A) || n == 0x2028 ||
  n == 0x2029 || n == 0x202F || n == 0x205F || n == 0x3000 || n == 0xFEFF

/-- The method `trim` on the characters of a string. -/
def trimChars (cs : List Char) : List Char :=
  ((cs.dropWhile isJsWhiteSpace).reverse.dropWhile isJsWhiteSpace).reverse

/-- The method `String.prototype.trim`. -/
def jsTrim (s : String) : String := ⟨trimChars s.data⟩

/-- The pieces of the regular expressions the script uses: a literal
character, or a character class under `+`. -/
inductive Atom where
  | lit : Char → Atom
  | plus : (Char → Bool) → Atom

/-- Backtracking match of a sequence of atoms against a prefix of the input. -/
def matchHere : List Atom → List Char → Bool
  | [], _ => true
  | _ :: _, [] => false
  | Atom.lit c :: rest, x :: xs => x == c && matchHere rest xs
  | Atom.plus p :: rest, x :: xs =>
    p x && (matchHere (Atom.plus p :: rest) xs || matchHere rest xs)

/-- The method `RegExp.prototype.test` for an unanchored pattern without
flags: a match may start at any position of the input. -/
def regexTest (pat : List Atom) : List Char → Bool
  | [] => matchHere pat []
  | x :: xs => matchHere pat (x :: xs) || regexTest pat xs

/-- The class `[^\s@]`. -/
def notSpaceNotAt (c : Char) : Bool := !isJsWhiteSpace c && c != '@'

/-- The literal `/[^\s@]+@[^\s@]+\.[^\s@]+/` of `validateFormField`. -/
def emailPattern : List Atom :=
  [Atom.plus notSpaceNotAt, Atom.lit '@', Atom.plus notSpaceNotAt, Atom.lit '.',
   Atom.plus notSpaceNotAt]

/-- The characters `encodeURIComponent` leaves as they are. -/
def isUriUnreserved (c : Char) : Bool :=
  c.isAlphanum || c == '-' || c == '_' || c == '.' || c == '!' || c == '~' ||
  c == '*' || c == Char.ofNat 39 || c == '(' || c == ')'

/-- The UTF-8 bytes of a code point. -/
def utf8Bytes (c : Char) : List Nat :=
  let n := c.toNat
  if n < 0x80 then [n]
  else if n < 0x800 then [0xC0 + n / 64, 0x80 + n % 64]
  else if n < 0x10000 then [0xE0 + n / 4096, 0x80 + n / 64 % 64, 0x80 + n % 64]
  else [0xF0 + n / 262144, 0x80 + n / 4096 % 64, 0x80 + n / 64 % 64, 0x80 + n % 64]

/-- An upper-case hexadecimal digit. -/
def hexDigit (d : Nat) : Char :=
  if d < 10 then Char.ofNat (48 + d) else Char.ofNat (55 + d)

/-- The escape `%XX` of one byte. -/
def percentByte (b : Nat) : List Char := ['%', hexDigit (b / 16), hexDigit (b % 16)]

/-- The characters `encodeURIComponent` produces for one code point. -/
def encodeChar (c : Char) : List Char :=
  if isUriUnreserved c then [c] else (utf8Bytes c).flatMap percentByte

/-- The function `encodeURIComponent` on well-formed strings. -/
def encodeURIComponent (s : String) : String := ⟨s.data.flatMap encodeChar⟩

/-- The value of a hexadecimal digit, either case. -/
def hexValue (c : Char) : Option Nat :=
  let n := c.toNat
  if 48 ≤ n ∧ n ≤ 57 then some (n - 48)
  else if 65 ≤ n ∧ n ≤ 70 then some (n - 55)
  else if 97 ≤ n ∧ n ≤ 102 then some (n - 87)
  else none

/-- What percent-decoding reads: a character standing for itself, or the
byte of an escape `%XX`. -/
inductive Token where
  | chr : Char → Token
  | byte : Nat → Token
  deriving DecidableEq, Repr

/-- Splits the input of `decodeURIComponent` into literal characters and
escaped bytes; fails on a `%` not followed by two hexadecimal digits. -/
def tokenize : List Char → Option (List Token)
  | [] => some []
  | c :: rest =>
    if c = '%' then
      match rest with
      | h :: l :: rest2 =>
        match hexValue h, hexValue l, tokenize rest2 with
        | some a, some b, some ts => some (Token.byte (16 * a + b) :: ts)
        | _, _, _ => none
      | _ => none
    else (tokenize rest).map (Token.chr c :: ·)

/-- A UTF-8 continuation byte. -/
def isContinuation (b : Nat) : Bool := 0x80 ≤ b && b < 0xC0

/-- Reads one code point off the front of the tokens: a literal character
stands for itself, escaped bytes must form one well-formed UTF-8 sequence (no
over-long form, no surrogate, at most U+10FFFF). Returns the code point and
the tokens left. -/
def decodeOne : List Token → Option (Char × List Token)
  | [] => none
  | Token.chr c :: ts => some (c, ts)
  | Token.byte b :: ts =>
    if b < 0x80 then some (Char.ofNat b, ts)
    else if b < 0xC0 then none
    else if b < 0xE0 then
      match ts with
      | Token.byte b1 :: ts1 =>
        let v := (b - 0xC0) * 64 + (b1 - 0x80)
        if isContinuation b1 && 0x80 ≤ v then some (Char.ofNat v, ts1) else none
      | _ => none
    else if b < 0xF0 then
      match ts with
      | Token.byte b1 :: Token.byte b2 :: ts2 =>
        let v := (b - 0xE0) * 4096 + (b1 - 0x80) * 64 + (b2 - 0x80)
        if isContinuation b1 && isContinuation b2 && 0x800 ≤ v && !(0xD800 ≤ v && v ≤ 0xDFFF)
        then some (Char.ofNat v, ts2)
        else none
      | _ => none
    else if b < 0xF8 then
      match ts with
      | Token.byte b1 :: Token.byte b2 :: Token.byte b3 :: ts3 =>
        let v := (b - 0xF0) * 262144 + (b1 - 0x80) * 4096 + (b2 - 0x80) * 64 + (b3 - 0x80)
        if isContinuation b1 && isContinuation b2 && isContinuation b3 && 0x10000 ≤ v
            && v ≤ 0x10FFFF
        then some (Char.ofNat v, ts3)
        else none
      | _ => none
    else none

/-- Decodes tokens one code point at a time. Every step consumes a token, so
a budget equal to the number of tokens is never exhausted. -/
def decodeLoop : Nat → List Token → Option (List Char)
  | _, [] => some []
  | 0, _ :: _ => none
  | fuel + 1, t :: ts =>
    match decodeOne (t :: ts) with
    | some (c, rest) => (decodeLoop fuel rest).map (c :: ·)
    | none => none

/-- Decodes a whole token list. -/
def decodeTokens (ts : List Token) : Option (List Char) := decodeLoop ts.length ts

/-- The function `decodeURIComponent`; `none` stands for a `URIError`. -/
def decodeURIComponent (s : String) : Option String :=
  ((tokenize s.data).bind decodeTokens).map String.mk

/-- The tokens that percent-decoding reads back from one encoded code point. -/
def tokensOf (c : Char) : List Token :=
  if isUriUnreserved c then [Token.chr c] else (utf8Bytes c).map Token.byte

/-- The strings a sequence of atoms matches in full. -/
def Matches : List Atom → List Char → Prop
  | [], m => m = []
  | Atom.lit c :: rest, m => ∃ m1, m = c :: m1 ∧ Matches rest m1
  | Atom.plus p :: rest, m =>
    ∃ w m1, m = w ++ m1 ∧ w ≠ [] ∧ (∀ x ∈ w, p x = true) ∧ Matches rest m1

/-- A part of an e-mail address as the pattern reads it: non-empty, without
whitespace and without `@`. -/
def EmailPart (w : List Char) : Prop :=
  w ≠ [] ∧ ∀ c ∈ w, isJsWhiteSpace c = false ∧ c ≠ '@'

/-! ## Contact form -/

/-- A form control as the script sees it: its current value, the default
value a form reset restores, its `type` and its `aria-invalid` attribute. -/
structure Field where
  value : String
  defaultValue : String
  type : String
  ariaInvalid : Option String
  deriving DecidableEq, Repr

/-- The function `validateFormField`: the field after the call (when there
is one) and the returned boolean. -/
def validateFormField (field : Option Field) : Option Field × Bool :=
  match field with
  | none => (none, false)
  | some f =>
    if jsTrim f.value = "" then
      (some { f with ariaInvalid := some "true" }, false)
    else if f.type = "email" then
      if regexTest emailPattern (jsTrim f.value).data = false then
        (some { f with ariaInvalid := some "true" }, false)
      else
        (some { f with ariaInvalid := none }, true)
    else
      (some { f with ariaInvalid := none }, true)

/-- The method `classList.add`. -/
def classListAdd (cl : List String) (c : String) : List String :=
  if c ∈ cl then cl else cl ++ [c]

/-- The method `classList.remove`. -/
def classListRemove (cl : List String) (c : String) : List String :=
  cl.filter fun x => x != c

/-- The contact form, its status element and the location of the window.
The three controls are found by id for validation and by name for
`FormData`; the model takes id and name to coincide. -/
structure ContactPage where
  nameField : Option Field
  emailField : Option Field
  messageField : Option Field
  statusText : String
  statusClasses : List String
  href : String

/-- The method `FormData.get` in a template literal: the value of the
control, or the text `null` when there is no such control. -/
def formDataGet (field : Option Field) : String :=
  match field with
  | some f => f.value
  | none => "null"

/-- The method `reset` of the form on one control. -/
def resetField (field : Option Field) : Option Field :=
  field.map fun f => { f with value := f.defaultValue }

/-- The body text of the message, before encoding. -/
def mailBody (name email message : String) : String :=
  "Name: " ++ name ++ "\nEmail: " ++ email ++ "\nMessage: " ++ message

/-- The submit listener installed by `handleContactForm`. -/
def handleSubmit (p : ContactPage) : ContactPage :=
  let p0 := { p with statusText := "" }
  let vName := validateFormField p0.nameField
  let vEmail := validateFormField p0.emailField
  let vMessage := validateFormField p0.messageField
  let p1 := { p0 with nameField := vName.1, emailField := vEmail.1, messageField := vMessage.1 }
  if !vName.2 || !vEmail.2 || !vMessage.2 then
    { p1 with
      statusText := "Please complete all required fields with valid information."
      statusClasses := classListAdd (classListRemove p1.statusClasses "success") "error" }
  else
    let subject := encodeURIComponent "Luminaverse Collaboration"
    let mailtoLink := "mailto:hello@luminaverse.africa?subject=" ++ subject ++ "&body=" ++
      encodeURIComponent (mailBody (formDataGet p1.nameField) (formDataGet p1.emailField)
        (formDataGet p1.messageField))
    { nameField := resetField p1.nameField
      emailField := resetField p1.emailField
      messageField := resetField p1.messageField
      statusText := "Message ready in your email client!"
      statusClasses := classListAdd (classListRemove p1.statusClasses "error") "success"
      href := mailtoLink }

/-- What a submit that aborts leaves of one control: the control is still
there with the same value, default value and type, and carries
`aria-invalid="true"` exactly when its validation failed. -/
def MarkedOnly (before after : Option Field) : Prop :=
  match before, after with
  | none, none => True
  | some f, some g =>
    g.value = f.value ∧ g.defaultValue = f.defaultValue ∧ g.type = f.type ∧
      ((validateFormField (some f)).2 = false → g.ariaInvalid = some "true") ∧
      ((validateFormField (some f)).2 = true → g.ariaInvalid = none)
  | _, _ => False

/-- The e-mail shape of the specification, read on the whole trimmed value:
`local@domain.suffix` with the three parts non-empty and free of whitespace
and of `@`. -/
def SpecEmailShape (s : List Char) : Prop :=
  ∃ loc dom suf, s = loc ++ '@' :: (dom ++ '.' :: suf) ∧
    EmailPart loc ∧ EmailPart dom ∧ EmailPart suf

/-- The e-mail shape the pattern accepts: the value contains a stretch of the
shape `local@domain.suffix`. -/
def ContainsEmailShape (s : List Char) : Prop :=
  ∃ pre loc dom suf post, s = pre ++ (loc ++ '@' :: (dom ++ '.' :: suf)) ++ post ∧
    EmailPart loc ∧ EmailPart dom ∧ EmailPart suf

/-- A form with an empty name, a valid e-mail and a valid message. -/
def emptyNamePage : ContactPage :=
  { nameField := some ⟨"", "", "text", none⟩
    emailField := some ⟨"a@b.co", "", "email", none⟩
    messageField := some ⟨"Hello", "", "textarea", none⟩
    statusText := ""
    statusClasses := []
    href := "https://luminaverse.africa/" }

/-- A form whose e-mail is `not-an-email`, name and message valid. -/
def badEmailPage : ContactPage :=
  { nameField := some ⟨"Ada", "", "text", none⟩
    emailField := some ⟨"not-an-email", "", "email", none⟩
    messageField := some ⟨"hi", "", "textarea", none⟩
    statusText := ""
    statusClasses := []
    href := "https://luminaverse.africa/" }

/-- A form with all three fields valid. -/
def validPage : ContactPage :=
  { nameField := some ⟨"Ada", "", "text", none⟩
    emailField := some ⟨"a@b.co", "", "email", none⟩
    messageField := some ⟨"Hello", "", "textarea", none⟩
    statusText := ""
    statusClasses := ["error"]
    href := "https://luminaverse.africa/" }

/-! ## Typewriter -/

/-- A UTF-16 code unit; a JavaScript string is a sequence of them, and
`split("")` cuts a string into its code units. -/
abbrev CodeUnit := Nat

/-- The UTF-16 code units of a string. -/
def codeUnits (s : String) : List CodeUnit :=
  s.data.flatMap fun c =>
    if c.toNat < 0x10000 then [c.toNat]
    else [0xD800 + (c.toNat - 0x10000) / 0x400, 0xDC00 + (c.toNat - 0x10000) % 0x400]

/-- The element `#typewriter`: its `data-text` attribute, when present, and
its text content. -/
structure TypewriterEl where
  dataText : Option (List CodeUnit)
  textContent : List CodeUnit
  deriving DecidableEq, Repr

/-- The state of the typewriter: the element, and the variables `characters`
and `index` of the closure; `intervalActive` tells whether the interval timer
is still set. -/
structure Typewriter where
  el : TypewriterEl
  characters : List CodeUnit
  index : Nat
  intervalActive : Bool
  deriving DecidableEq, Repr

/-- The function `initTypewriter` up to the call of `setInterval`; `none`
when the page has no such element. -/
def initTypewriter (typewriterEl : Option TypewriterEl) : Option Typewriter :=
  match typewriterEl with
  | none => none
  | some el =>
    let text := match el.dataText with
      | some t => if t.isEmpty then [] else t
      | none => []
    some { el := { el with textContent := [] }
           characters := text
           index := 0
           intervalActive := true }

/-- One expiry of the interval: the callback of `setInterval`. A cleared
interval does not fire. -/
def tick (s : Typewriter) : Typewriter :=
  if s.intervalActive then
    if h : s.index < s.characters.length then
      { s with
        el := { s.el with textContent := s.el.textContent ++ [s.characters[s.index]] }
        index := s.index + 1 }
    else
      { s with intervalActive := false }
  else s

/-- The state after `k` expiries of the interval. -/
def ticks : Nat → Typewriter → Typewriter
  | 0, s => s
  | k + 1, s => ticks k (tick s)

/-- The typewriter element of the example: `data-text="Hi!"` over some
prior content. -/
def hiElement : TypewriterEl :=
  { dataText := some (codeUnits "Hi!"), textContent := codeUnits "old" }

/-! ## Intersection-based reveal -/

/-- What the reveal touches of an element: its class list and whether the
observer observes it. -/
structure Target where
  classList : List String
  observed : Bool
  deriving DecidableEq, Repr

/-- The elements of the document, by identifier. -/
abbrev Dom := Nat → Target

/-- Replaces one element. -/
def setTarget (d : Dom) (id : Nat) (t : Target) : Dom :=
  fun j => if j = id then t else d j

/-- An `IntersectionObserverEntry`: its target and its `isIntersecting`. -/
structure Entry where
  target : Nat
  isIntersecting : Bool
  deriving DecidableEq, Repr

/-- The body of the observer callback for one entry. -/
def onEntry (d : Dom) (entry : Entry) : Dom :=
  if entry.isIntersecting then
    setTarget d entry.target
      { classList := classListAdd (d entry.target).classList "in-view", observed := false }
  else d

/-- The observer callback: `entries.forEach`. -/
def observerCallback (entries : List Entry) (d : Dom) : Dom :=
  entries.foldl onEntry d

/-- The function `initIntersectionObserver`: every element carrying
`data-animate` becomes observed. -/
def initIntersectionObserver (elements : List Nat) (d : Dom) : Dom :=
  fun j => if j ∈ elements then { d j with observed := true } else d j

/-- A sequence of notifications: the callback runs once per batch. -/
def deliver (batches : List (List Entry)) (d : Dom) : Dom :=
  batches.foldl (fun d entries => observerCallback entries d) d

/-- Whether an element carries the class `in-view`. -/
def hasMarker (d : Dom) (x : Nat) : Bool := decide ("in-view" ∈ (d x).classList)

/-- The number of notifications at which the element goes from not carrying
the marker to carrying it. -/
def markerGains (x : Nat) : List (List Entry) → Dom → Nat
  | [], _ => 0
  | entries :: rest, d =>
    (if !hasMarker d x && hasMarker (observerCallback entries d) x then 1 else 0)
      + markerGains x rest (observerCallback entries d)

/-- A batch that does not report the element as intersecting. -/
def Quiet (x : Nat) (entries : List Entry) : Prop :=
  ∀ e ∈ entries, e.target = x → e.isIntersecting = false

/-- A document in which no element has a class and none is observed. -/
def blankDom : Dom := fun _ => { classList := [], observed := false }

/-! ## Timeline progress -/

/-- The position of the leading bit of `n`, found by halving; `fuel` bounds
the number of halvings. -/
def floorLog2Aux : Nat → Nat → Nat
  | 0, _ => 0
  | fuel + 1, n => if n < 2 then 0 else floorLog2Aux fuel (n / 2) + 1

/-- The integer part of the binary logarithm of a positive number. -/
def floorLog2 (n : Nat) : Nat := floorLog2Aux n n

/-- The integer nearest to `a / b`, a tie going to the even one. -/
def roundHalfEven (a b : Nat) : Nat :=
  let q := a / b
  let r := a % b
  if 2 * r < b then q
  else if b < 2 * r then q + 1
  else if q % 2 = 0 then q else q + 1

/-- Numerator and denominator of the IEEE 754 double nearest to `a / b`, for
positive `a` and `b`: the quotient is scaled by a power of two into
`[2^52, 2^53)`, rounded to an integer with ties to even, and scaled back. The
exponent range of doubles is not modelled; the quotients of this script stay
far inside it. -/
def doubleParts (a b : Nat) : Nat × Nat :=
  let la := floorLog2 a
  let lb := floorLog2 b
  let c := if 2 ^ la * b ≤ a * 2 ^ lb then 0 else 1
  let up := (52 + lb + c) - la
  let down := la - (52 + lb + c)
  (roundHalfEven (a * 2 ^ up) (b * 2 ^ down) * 2 ^ down, 2 ^ up)

/-- The double nearest to `a / b` (round to nearest, ties to even, 53-bit
significand), as the rational it denotes. -/
def doubleOfRatio (a b : Nat) : ℚ :=
  if a = 0 then 0 else ((doubleParts a b).1 : ℚ) / ((doubleParts a b).2 : ℚ)

/-- The expression `viewportHeight * 0.6` in double arithmetic. The literal
`0.6` denotes the double `5404319552844595 / 2^53`; `viewportHeight` is
`window.innerHeight`, a non-negative integer; the exact product is rounded
to the nearest double. -/
def timesPointSix (viewportHeight : Nat) : ℚ :=
  doubleOfRatio (viewportHeight * 5404319552844595) (2 ^ 53)

/-- The expression `Math.min(viewportHeight * 0.6, viewportHeight - 120)`.
The difference of the two integers is exact in double arithmetic. -/
def visibilityThreshold (viewportHeight : Nat) : ℚ :=
  min (timesPointSix viewportHeight) ((viewportHeight : ℚ) - 120)

/-- The loop `items.forEach((item, index) => ...)` of `updateProgress` from
position `index` on, with the current value of `visibleIndex`. The top edge
of an item is a finite double, taken as the rational it denotes; comparing
two doubles is comparing these rationals. -/
def forEachItem (threshold : ℚ) : List ℚ → Nat → Int → Int
  | [], _, visibleIndex => visibleIndex
  | top :: rest, index, visibleIndex =>
    forEachItem threshold rest (index + 1) (if top < threshold then (index : Int) else visibleIndex)

/-- The function `updateProgress`: the value written to `--timeline-progress`
for the top edges of the items and the height of the viewport. The quotient
`(visibleIndex + 1) / items.length` is a double division. -/
def updateProgress (tops : List ℚ) (viewportHeight : Nat) : ℚ :=
  let visibleIndex := forEachItem (visibilityThreshold viewportHeight) tops 0 (-1)
  if visibleIndex ≥ 0 then doubleOfRatio (visibleIndex + 1).toNat tops.length else 0

/-- The function `initTimelineAnimation` up to its first `updateProgress`;
`none` when there is no timeline or it has no item. -/
def initTimelineAnimation (timeline : Option (List ℚ)) (viewportHeight : Nat) : Option ℚ :=
  match timeline with
  | none => none
  | some tops => if tops.length = 0 then none else some (updateProgress tops viewportHeight)

/-! ## Theorems: theme store and applier -/

theorem getItem_setItem (store : String → Option String) (k v : String) :
    getItem (setItem store k v) k = some v := by
  simp [getItem, setItem]

theorem resolveTheme_allowed (x : String) (hx : x ∈ allowedThemes) :
    resolveTheme x = x ∧ (x != "" && (themes x).truthy) = true := by
  simp only [allowedThemes, List.mem_cons, List.mem_singleton, List.not_mem_nil, or_false] at hx
  rcases hx with rfl | rfl | rfl <;> decide

theorem loadTheme_applyTheme (x : String) (p : Page) (hx : resolveTheme x = x)
    (ht : (x != "" && (themes x).truthy) = true) :
    loadTheme (applyTheme x p) = applyTheme x (applyTheme x p) := by
  have hs : getItem (applyTheme x p).localStorage THEME_KEY = some x := by
    simp only [applyTheme, hx]
    exact getItem_setItem _ _ _
  unfold loadTheme
  rw [hs]
  simp only [ht, if_true]

/-- Claim C1, evaluated at the failing input: `"constructor"` is not an
allowed theme, and on every page `applyTheme("constructor")` sets the theme
of root and body to `"constructor"` and stores `"constructor"`. -/
theorem applyTheme_constructor :
    "constructor" ∉ allowedThemes ∧
    ∀ p : Page,
      (applyTheme "constructor" p).rootTheme = some "constructor" ∧
      (applyTheme "constructor" p).bodyTheme = some "constructor" ∧
      getItem (applyTheme "constructor" p).localStorage "luminaverse-theme"
        = some "constructor" := by
  refine ⟨by decide, fun p => ?_⟩
  have hr : resolveTheme "constructor" = "constructor" := by decide
  refine ⟨?_, ?_, ?_⟩
  · simp only [applyTheme, hr]
  · simp only [applyTheme, hr]
  · simp only [applyTheme, hr]
    exact getItem_setItem _ _ _

theorem loadTheme_of_stored (x : String) (q : Page)
    (ht : (x != "" && (themes x).truthy) = true)
    (hs : getItem q.localStorage THEME_KEY = some x) :
    loadTheme q = applyTheme x q := by
  unfold loadTheme
  rw [hs]
  simp only [ht, if_true]

/-- Claim C2: for every allowed theme `x` and every prior page and storage,
after `applyTheme(x)` root, body and the stored value are `x`; and on every
page `q` whose storage holds under the theme key what `applyTheme(x)` stored
(a fresh load: root, body and controls of `q` are arbitrary), `loadTheme()`
reads that value back and leaves root, body and the stored value equal to `x`
and each toggle control pressed exactly when its theme is `x`. The page
`applyTheme(x)` has just written is one such `q`. -/
theorem theme_round_trip (x : String) (hx : x ∈ allowedThemes) (p q : Page)
    (hq : getItem q.localStorage "luminaverse-theme"
      = getItem (applyTheme x p).localStorage "luminaverse-theme") :
    (applyTheme x p).rootTheme = some x ∧
    (applyTheme x p).bodyTheme = some x ∧
    getItem (applyTheme x p).localStorage "luminaverse-theme" = some x ∧
    (loadTheme q).rootTheme = some x ∧
    (loadTheme q).bodyTheme = some x ∧
    getItem (loadTheme q).localStorage "luminaverse-theme" = some x ∧
    (loadTheme q).themeButtons = q.themeButtons.map (fun b =>
      { b with ariaPressed := some (toString (decide (b.themeToggle = x))) }) ∧
    (loadTheme (applyTheme x p)).rootTheme = some x ∧
    (loadTheme (applyTheme x p)).bodyTheme = some x ∧
    getItem (loadTheme (applyTheme x p)).localStorage "luminaverse-theme" = some x ∧
    (loadTheme (applyTheme x p)).themeButtons = (applyTheme x p).themeButtons := by
  obtain ⟨hr, ht⟩ := resolveTheme_allowed x hx
  have hs : getItem (applyTheme x p).localStorage THEME_KEY = some x := by
    simp only [applyTheme, hr]
    exact getItem_setItem _ _ _
  have hsq : getItem q.localStorage THEME_KEY = some x := hq.trans hs
  rw [loadTheme_of_stored x q ht hsq, loadTheme_applyTheme x p hr ht]
  refine ⟨?_, ?_, hs, ?_, ?_, ?_, ?_, ?_, ?_, ?_, ?_⟩
  · simp only [applyTheme, hr]
  · simp only [applyTheme, hr]
  · simp only [applyTheme, hr]
  · simp only [applyTheme, hr]
  · simp only [applyTheme, hr]
    exact getItem_setItem _ _ _
  · simp only [applyTheme, hr]
  · simp only [applyTheme, hr]
  · simp only [applyTheme, hr]
  · simp only [applyTheme, hr]
    exact getItem_setItem _ _ _
  · simp only [applyTheme, hr, List.map_map]
    apply List.map_congr_left
    intro b _
    simp

/-- Claim C2 at the theme `dark`: applied on the sample page, loaded on a
page that shares only the storage. -/
theorem theme_round_trip_witness :
    ("dark" ∈ allowedThemes ∧
      getItem reloadedPage.localStorage "luminaverse-theme"
        = getItem (applyTheme "dark" samplePage).localStorage "luminaverse-theme") ∧
    ((applyTheme "dark" samplePage).rootTheme = some "dark" ∧
    (applyTheme "dark" samplePage).bodyTheme = some "dark" ∧
    getItem (applyTheme "dark" samplePage).localStorage "luminaverse-theme" = some "dark" ∧
    (loadTheme reloadedPage).rootTheme = some "dark" ∧
    (loadTheme reloadedPage).bodyTheme = some "dark" ∧
    getItem (loadTheme reloadedPage).localStorage "luminaverse-theme" = some "dark" ∧
    (loadTheme reloadedPage).themeButtons = reloadedPage.themeButtons.map (fun b =>
      { b with ariaPressed := some (toString (decide (b.themeToggle = "dark"))) }) ∧
    (loadTheme (applyTheme "dark" samplePage)).rootTheme = some "dark" ∧
    (loadTheme (applyTheme "dark" samplePage)).bodyTheme = some "dark" ∧
    getItem (loadTheme (applyTheme "dark" samplePage)).localStorage "luminaverse-theme"
      = some "dark" ∧
    (loadTheme (applyTheme "dark" samplePage)).themeButtons
      = (applyTheme "dark" samplePage).themeButtons) :=
  ⟨⟨by decide, by decide⟩, theme_round_trip "dark" (by decide) samplePage reloadedPage (by decide)⟩

/-- Claim C3, evaluated at the failing input: with `"constructor"` stored
under the theme key, `loadTheme()` applies and stores `"constructor"`, which
is not an allowed theme. -/
theorem loadTheme_stored_constructor :
    getItem storedConstructorPage.localStorage "luminaverse-theme" = some "constructor" ∧
    "constructor" ∉ allowedThemes ∧
    (loadTheme storedConstructorPage).rootTheme = some "constructor" ∧
    (loadTheme storedConstructorPage).bodyTheme = some "constructor" ∧
    getItem (loadTheme storedConstructorPage).localStorage "luminaverse-theme"
      = some "constructor" := by
  decide

/-- Claim C4, evaluated at the failing input: on the page with one toggle
control per allowed theme, after `applyTheme("constructor")` every control has
`aria-pressed="false"` and none is pressed. -/
theorem applyTheme_constructor_none_pressed :
    (samplePage.themeButtons.map fun b => b.themeToggle) = allowedThemes ∧
    pressedButtons (applyTheme "constructor" samplePage) = [] ∧
    (applyTheme "constructor" samplePage).themeButtons =
      [⟨"safari", some "false"⟩, ⟨"dark", some "false"⟩, ⟨"luminaverse", some "false"⟩] := by
  decide

theorem resolveTheme_default (s : String) (h1 : s ∉ allowedThemes)
    (h2 : s ∉ objectPrototypeMethods) (h3 : s ≠ "__proto__") : resolveTheme s = "safari" := by
  simp only [allowedThemes, List.mem_cons, List.mem_singleton, List.not_mem_nil, or_false,
    not_or] at h1
  obtain ⟨a, b, c⟩ := h1
  have ha : (s == "safari") = false := by simpa using a
  have hb : (s == "dark") = false := by simpa using b
  have hc : (s == "luminaverse") = false := by simpa using c
  have hl : themesOwn.lookup s = none := by
    simp only [themesOwn, List.lookup, ha, hb, hc]
  simp [resolveTheme, themes, hl, h2, h3, JSValue.truthy]

/-! ## Theorems: percent-encoding -/

theorem hexValue_hexDigit : ∀ d, d < 16 → hexValue (hexDigit d) = some d := by decide

theorem tokenize_percentByte (b : Nat) (hb : b < 256) (rest : List Char) :
    tokenize (percentByte b ++ rest) = (tokenize rest).map (Token.byte b :: ·) := by
  have h1 : hexValue (hexDigit (b / 16)) = some (b / 16) := hexValue_hexDigit _ (by omega)
  have h2 : hexValue (hexDigit (b % 16)) = some (b % 16) := hexValue_hexDigit _ (by omega)
  have h3 : 16 * (b / 16) + b % 16 = b := by omega
  simp only [percentByte, List.cons_append, List.nil_append, tokenize, if_true, h1, h2]
  cases h : tokenize rest <;> simp [h, h3]

theorem tokenize_chr (c : Char) (rest : List Char) (hne : c ≠ '%') :
    tokenize (c :: rest) = (tokenize rest).map (Token.chr c :: ·) := by
  rcases rest with _ | ⟨h, _ | ⟨l, rest2⟩⟩ <;> simp [tokenize, hne]

theorem char_toNat_valid (c : Char) :
    c.toNat < 0xD800 ∨ (0xDFFF < c.toNat ∧ c.toNat < 0x110000) := by
  have h := c.valid
  simp only [UInt32.isValidChar, Nat.isValidChar] at h
  exact h

theorem utf8Bytes_lt (c : Char) : ∀ b ∈ utf8Bytes c, b < 256 := by
  have hv := char_toNat_valid c
  intro b hb
  unfold utf8Bytes at hb
  simp only at hb
  split_ifs at hb <;> simp at hb <;> omega

theorem tokenize_bytes (bs : List Nat) (h : ∀ b ∈ bs, b < 256) (rest : List Char) :
    tokenize (bs.flatMap percentByte ++ rest)
      = (tokenize rest).map (bs.map Token.byte ++ ·) := by
  induction bs with
  | nil =>
    cases h : tokenize rest <;> simp [h]
  | cons b bs ih =>
    have hb : b < 256 := h b (by simp)
    have ih2 := ih (fun x hx => h x (by simp [hx]))
    simp only [List.flatMap_cons, List.append_assoc, List.map_cons, List.cons_append]
    rw [tokenize_percentByte b hb, ih2]
    cases h : tokenize rest <;> simp [h]

theorem tokenize_encodeChar (c : Char) (rest : List Char) :
    tokenize (encodeChar c ++ rest) = (tokenize rest).map (tokensOf c ++ ·) := by
  unfold encodeChar tokensOf
  split_ifs with hu
  · have hne : c ≠ '%' := by
      rintro rfl
      revert hu
      decide
    exact tokenize_chr c rest hne
  · exact tokenize_bytes _ (utf8Bytes_lt c) rest

theorem tokenize_encode (cs : List Char) :
    tokenize (cs.flatMap encodeChar) = some (cs.flatMap tokensOf) := by
  induction cs with
  | nil => simp [tokenize]
  | cons c cs ih => simp [tokenize_encodeChar, ih]

theorem decodeOne_tokensOf (c : Char) (ts : List Token) :
    decodeOne (tokensOf c ++ ts) = some (c, ts) := by
  have hv := char_toNat_valid c
  unfold tokensOf
  split_ifs with hu
  · simp [decodeOne]
  · unfold utf8Bytes
    simp only
    split_ifs with h1 h2 h3
    · simp [decodeOne, h1]
    · have a1 : ¬ (192 + c.toNat / 64 < 128) := by omega
      have a2 : ¬ (192 + c.toNat / 64 < 192) := by omega
      have a3 : 192 + c.toNat / 64 < 224 := by omega
      have hc : isContinuation (128 + c.toNat % 64) = true := by
        simp [isContinuation]; omega
      have e : c.toNat / 64 * 64 + c.toNat % 64 = c.toNat := by omega
      simp [decodeOne, a1, a2, a3, hc]
      rw [e]
      exact ⟨by omega, Char.ofNat_toNat c⟩
    · have a1 : ¬ (224 + c.toNat / 4096 < 128) := by omega
      have a2 : ¬ (224 + c.toNat / 4096 < 192) := by omega
      have a3 : ¬ (224 + c.toNat / 4096 < 224) := by omega
      have a4 : 224 + c.toNat / 4096 < 240 := by omega
      have hc1 : isContinuation (128 + c.toNat / 64 % 64) = true := by
        simp [isContinuation]; omega
      have hc2 : isContinuation (128 + c.toNat % 64) = true := by
        simp [isContinuation]; omega
      have e : c.toNat / 4096 * 4096 + c.toNat / 64 % 64 * 64 + c.toNat % 64 = c.toNat := by
        omega
      simp [decodeOne, a1, a2, a3, a4, hc1, hc2]
      rw [e]
      exact ⟨by omega, Char.ofNat_toNat c⟩
    · have a1 : ¬ (240 + c.toNat / 262144 < 128) := by omega
      have a2 : ¬ (240 + c.toNat / 262144 < 192) := by omega
      have a3 : ¬ (240 + c.toNat / 262144 < 224) := by omega
      have a4 : ¬ (240 + c.toNat / 262144 < 240) := by omega
      have a5 : 240 + c.toNat / 262144 < 248 := by omega
      have hc1 : isContinuation (128 + c.toNat / 4096 % 64) = true := by
        simp [isContinuation]; omega
      have hc2 : isContinuation (128 + c.toNat / 64 % 64) = true := by
        simp [isContinuation]; omega
      have hc3 : isContinuation (128 + c.toNat % 64) = true := by
        simp [isContinuation]; omega
      have e : c.toNat / 262144 * 262144 + c.toNat / 4096 % 64 * 4096
          + c.toNat / 64 % 64 * 64 + c.toNat % 64 = c.toNat := by
        omega
      simp [decodeOne, a1, a2, a3, a4, a5, hc1, hc2, hc3]
      rw [e]
      exact ⟨by omega, Char.ofNat_toNat c⟩

theorem tokensOf_length_pos (c : Char) : 0 < (tokensOf c).length := by
  unfold tokensOf utf8Bytes
  simp only
  split_ifs <;> simp

theorem decodeLoop_tokens (cs : List Char) :
    ∀ fuel, (cs.flatMap tokensOf).length ≤ fuel →
      decodeLoop fuel (cs.flatMap tokensOf) = some cs := by
  induction cs with
  | nil => intro fuel _; cases fuel <;> simp [decodeLoop]
  | cons c cs ih =>
    intro fuel hf
    have hpos := tokensOf_length_pos c
    simp only [List.flatMap_cons, List.length_append] at hf ⊢
    obtain ⟨f, rfl⟩ : ∃ f, fuel = f + 1 := ⟨fuel - 1, by omega⟩
    have hone := decodeOne_tokensOf c (cs.flatMap tokensOf)
    rcases hts : tokensOf c ++ cs.flatMap tokensOf with _ | ⟨t, ts⟩
    · have := congrArg List.length hts
      simp only [List.length_append, List.length_nil] at this
      omega
    · rw [hts] at hone
      simp only [decodeLoop, hone]
      have hlen : (cs.flatMap tokensOf).length ≤ f := by omega
      simp [ih f hlen]

/-- Percent-decoding undoes percent-encoding on every string. -/
theorem decodeURIComponent_encodeURIComponent (s : String) :
    decodeURIComponent (encodeURIComponent s) = some s := by
  unfold decodeURIComponent encodeURIComponent decodeTokens
  simp only [tokenize_encode, Option.some_bind]
  rw [decodeLoop_tokens s.data _ (le_refl _)]
  rfl

/-! ## Theorems: pattern matching -/

theorem matchHere_iff (s : List Char) :
    ∀ pat, matchHere pat s = true ↔ ∃ m post, s = m ++ post ∧ Matches pat m := by
  induction s with
  | nil =>
    intro pat
    rcases pat with _ | ⟨a, rest⟩
    · simp [matchHere, Matches]
    · cases a with
      | lit c =>
        simp only [matchHere, Matches]
        constructor
        · intro h; cases h
        · rintro ⟨m, post, h, m1, rfl, _⟩
          simp at h
      | plus p =>
        simp only [matchHere, Matches]
        constructor
        · intro h; cases h
        · rintro ⟨m, post, h, w, m1, rfl, hw, _⟩
          have : w = [] := by
            have := congrArg List.length h
            simp only [List.length_nil, List.length_append] at this
            exact List.length_eq_zero.mp (by omega)
          exact absurd this hw
  | cons x xs ih =>
    intro pat
    rcases pat with _ | ⟨a, rest⟩
    · simp only [matchHere, Matches]
      exact ⟨fun _ => ⟨[], x :: xs, rfl, rfl⟩, fun _ => trivial⟩
    · cases a with
      | lit c =>
        simp only [matchHere, Matches, Bool.and_eq_true, beq_iff_eq, ih rest]
        constructor
        · rintro ⟨rfl, m, post, rfl, hm⟩
          exact ⟨x :: m, post, rfl, m, rfl, hm⟩
        · rintro ⟨m, post, h, m1, rfl, hm⟩
          simp only [List.cons_append, List.cons.injEq] at h
          exact ⟨h.1, m1, post, h.2, hm⟩
      | plus p =>
        simp only [matchHere, Matches, Bool.and_eq_true, Bool.or_eq_true, ih rest,
          ih (Atom.plus p :: rest)]
        constructor
        · rintro ⟨hp, ⟨m, post, rfl, w, m1, rfl, hw, hall, hm⟩ | ⟨m, post, rfl, hm⟩⟩
          · refine ⟨x :: (w ++ m1), post, rfl, x :: w, m1, rfl, by simp, ?_, hm⟩
            intro y hy
            rcases List.mem_cons.mp hy with rfl | hy
            · exact hp
            · exact hall y hy
          · exact ⟨x :: m, post, rfl, [x], m, rfl, by simp, by simpa using hp, hm⟩
        · rintro ⟨m, post, h, w, m1, rfl, hw, hall, hm⟩
          rcases w with _ | ⟨y, w⟩
          · exact absurd rfl hw
          · simp only [List.cons_append, List.cons.injEq] at h
            obtain ⟨rfl, rfl⟩ := h
            refine ⟨hall x (by simp), ?_⟩
            rcases w with _ | ⟨z, w⟩
            · exact Or.inr ⟨m1, post, rfl, hm⟩
            · exact Or.inl ⟨(z :: w) ++ m1, post, by simp, z :: w, m1, rfl, by simp,
                fun y hy => hall y (List.mem_cons_of_mem _ hy), hm⟩

theorem regexTest_iff (pat : List Atom) (s : List Char) :
    regexTest pat s = true ↔ ∃ pre m post, s = pre ++ m ++ post ∧ Matches pat m := by
  induction s with
  | nil =>
    simp only [regexTest, matchHere_iff]
    constructor
    · rintro ⟨m, post, h, hm⟩
      exact ⟨[], m, post, by simpa using h, hm⟩
    · rintro ⟨pre, m, post, h, hm⟩
      have h1 : pre = [] := by
        have := congrArg List.length h
        simp at this
        exact List.length_eq_zero.mp (by omega)
      subst h1
      exact ⟨m, post, by simpa using h, hm⟩
  | cons x xs ih =>
    simp only [regexTest, Bool.or_eq_true, matchHere_iff, ih]
    constructor
    · rintro (⟨m, post, h, hm⟩ | ⟨pre, m, post, h, hm⟩)
      · exact ⟨[], m, post, by simpa using h, hm⟩
      · exact ⟨x :: pre, m, post, by simp [h], hm⟩
    · rintro ⟨pre, m, post, h, hm⟩
      rcases pre with _ | ⟨y, pre⟩
      · exact Or.inl ⟨m, post, by simpa using h, hm⟩
      · simp only [List.cons_append, List.cons.injEq] at h
        exact Or.inr ⟨pre, m, post, h.2, hm⟩

theorem matches_emailPattern (m : List Char) :
    Matches emailPattern m ↔
      ∃ loc dom suf, m = loc ++ '@' :: (dom ++ '.' :: suf) ∧
        EmailPart loc ∧ EmailPart dom ∧ EmailPart suf := by
  have hp : ∀ w : List Char, (∀ x ∈ w, notSpaceNotAt x = true) ↔
      ∀ c ∈ w, isJsWhiteSpace c = false ∧ c ≠ '@' := by
    intro w
    simp [notSpaceNotAt]
  simp only [emailPattern, Matches, EmailPart, hp]
  constructor
  · rintro ⟨w1, m1, rfl, hw1, ha1, m2, rfl, w2, m3, rfl, hw2, ha2, m4, rfl, w3, m5, rfl, hw3,
      ha3, rfl⟩
    exact ⟨w1, w2, w3, by simp, ⟨hw1, ha1⟩, ⟨hw2, ha2⟩, ⟨hw3, ha3⟩⟩
  · rintro ⟨loc, dom, suf, rfl, ⟨hw1, ha1⟩, ⟨hw2, ha2⟩, ⟨hw3, ha3⟩⟩
    exact ⟨loc, _, rfl, hw1, ha1, _, rfl, dom, _, rfl, hw2, ha2, _, rfl, suf, [], by simp, hw3,
      ha3, rfl⟩

/-! ## Theorems: contact form -/

theorem regexTest_emailPattern (s : List Char) :
    regexTest emailPattern s = true ↔ ContainsEmailShape s := by
  rw [regexTest_iff]
  unfold ContainsEmailShape
  constructor
  · rintro ⟨pre, m, post, rfl, hm⟩
    obtain ⟨loc, dom, suf, rfl, h1, h2, h3⟩ := (matches_emailPattern m).mp hm
    exact ⟨pre, loc, dom, suf, post, rfl, h1, h2, h3⟩
  · rintro ⟨pre, loc, dom, suf, post, rfl, h1, h2, h3⟩
    exact ⟨pre, _, post, rfl, (matches_emailPattern _).mpr ⟨loc, dom, suf, rfl, h1, h2, h3⟩⟩

theorem validateFormField_none : validateFormField none = (none, false) := rfl

theorem validateFormField_snd_true {field : Option Field}
    (h : (validateFormField field).2 = true) : ∃ f, field = some f := by
  cases field with
  | none => simp [validateFormField] at h
  | some f => exact ⟨f, rfl⟩

theorem validateFormField_markedOnly (field : Option Field) :
    MarkedOnly field (validateFormField field).1 := by
  cases field with
  | none => simp [validateFormField, MarkedOnly]
  | some f =>
    by_cases h1 : jsTrim f.value = ""
    · simp [MarkedOnly, validateFormField, h1]
    · by_cases h2 : f.type = "email"
      · by_cases h3 : regexTest emailPattern (jsTrim f.value).data = false
        · simp [MarkedOnly, validateFormField, h1, h2, h3]
        · simp [MarkedOnly, validateFormField, h1, h2, h3]
      · simp [MarkedOnly, validateFormField, h1, h2]

theorem validateFormField_of_true (f : Field) (h : (validateFormField (some f)).2 = true) :
    validateFormField (some f) = (some { f with ariaInvalid := none }, true) := by
  by_cases h1 : jsTrim f.value = ""
  · simp [validateFormField, h1] at h
  · by_cases h2 : f.type = "email"
    · by_cases h3 : regexTest emailPattern (jsTrim f.value).data = false
      · simp [validateFormField, h1, h2, h3] at h
      · simp [validateFormField, h1, h2, h3]
    · simp [validateFormField, h1, h2]

theorem mem_classListAdd (cl : List String) (c : String) : c ∈ classListAdd cl c := by
  unfold classListAdd
  split_ifs with h
  · exact h
  · simp

theorem not_mem_classListAdd_remove (cl : List String) (a b : String) (hab : a ≠ b) :
    a ∉ classListAdd (classListRemove cl a) b := by
  unfold classListAdd classListRemove
  split_ifs with h <;> simp [hab]

/-- Claim C5, as the code has it: for every present field the validator
returns true exactly when the trimmed value is non-empty and, for a field of
type `email`, the trimmed value contains a stretch `local@domain.suffix` whose
three parts are non-empty and free of whitespace and of `@`. -/
theorem validateFormField_true_iff (f : Field) :
    (validateFormField (some f)).2 = true ↔
      (jsTrim f.value ≠ "" ∧
        (f.type = "email" → ContainsEmailShape (jsTrim f.value).data)) := by
  unfold validateFormField
  simp only
  split_ifs with h1 h2 h3
  · simp [h1]
  · have : ¬ ContainsEmailShape (jsTrim f.value).data := by
      rw [← regexTest_emailPattern]
      simp [h3]
    simp [h1, h2, this]
  · simp only [true_iff]
    refine ⟨h1, fun _ => ?_⟩
    rw [← regexTest_emailPattern]
    simpa using h3
  · simp only [true_iff]
    exact ⟨h1, fun ht => absurd ht h2⟩

/-- Claim C5, counterexample: the e-mail values `a b@c.d` (interior
whitespace) and `a@b@c.d` (a second `@`) have not the shape
`local@domain.suffix`, and the validator accepts both. -/
theorem validateFormField_accepts_unanchored :
    ((validateFormField (some ⟨"a b@c.d", "", "email", none⟩)).2 = true ∧
      ¬ SpecEmailShape (jsTrim "a b@c.d").data) ∧
    ((validateFormField (some ⟨"a@b@c.d", "", "email", none⟩)).2 = true ∧
      ¬ SpecEmailShape (jsTrim "a@b@c.d").data) := by
  have hs : isJsWhiteSpace ' ' = true := by decide
  refine ⟨⟨by decide, ?_⟩, ⟨by decide, ?_⟩⟩
  · have ht : (jsTrim "a b@c.d").data = ['a', ' ', 'b', '@', 'c', '.', 'd'] := by decide
    rw [ht]
    rintro ⟨loc, dom, suf, h, h1, h2, h3⟩
    have hmem : ' ' ∈ loc ++ '@' :: (dom ++ '.' :: suf) := by
      rw [← h]; decide
    simp only [List.mem_append, List.mem_cons] at hmem
    rcases hmem with hm | hm | hm | hm | hm
    · exact absurd (h1.2 _ hm).1 (by simp [hs])
    · exact absurd hm (by decide)
    · exact absurd (h2.2 _ hm).1 (by simp [hs])
    · exact absurd hm (by decide)
    · exact absurd (h3.2 _ hm).1 (by simp [hs])
  · have ht : (jsTrim "a@b@c.d").data = ['a', '@', 'b', '@', 'c', '.', 'd'] := by decide
    rw [ht]
    rintro ⟨loc, dom, suf, h, h1, h2, h3⟩
    have hc := congrArg (List.count '@') h
    have c1 : List.count '@' loc = 0 :=
      List.count_eq_zero.mpr fun hm => (h1.2 _ hm).2 rfl
    have c2 : List.count '@' dom = 0 :=
      List.count_eq_zero.mpr fun hm => (h2.2 _ hm).2 rfl
    have c3 : List.count '@' suf = 0 :=
      List.count_eq_zero.mpr fun hm => (h3.2 _ hm).2 rfl
    have cl : List.count '@' ['a', '@', 'b', '@', 'c', '.', 'd'] = 2 := by decide
    have cd : List.count '@' ('.' :: suf) = List.count '@' suf :=
      List.count_cons_of_ne (by decide) suf
    rw [cl, List.count_append, List.count_cons_self, List.count_append, cd, c1, c2, c3] at hc
    omega

/-- Claim C6: when at least one of the three validations fails, the submit
aborts. The location is unchanged, the status text is the fixed prompt with
class `error` and without class `success`, and each control keeps its value
and carries `aria-invalid` exactly when its own validation failed. -/
theorem handleSubmit_abort (p : ContactPage)
    (h : (validateFormField p.nameField).2 = false ∨
         (validateFormField p.emailField).2 = false ∨
         (validateFormField p.messageField).2 = false) :
    (handleSubmit p).href = p.href ∧
    (handleSubmit p).statusText = "Please complete all required fields with valid information." ∧
    "error" ∈ (handleSubmit p).statusClasses ∧
    "success" ∉ (handleSubmit p).statusClasses ∧
    MarkedOnly p.nameField (handleSubmit p).nameField ∧
    MarkedOnly p.emailField (handleSubmit p).emailField ∧
    MarkedOnly p.messageField (handleSubmit p).messageField := by
  have hc : (!(validateFormField p.nameField).2 || !(validateFormField p.emailField).2 ||
      !(validateFormField p.messageField).2) = true := by
    rcases h with h | h | h <;> simp [h]
  unfold handleSubmit
  simp only [hc, if_true]
  exact ⟨trivial, trivial, mem_classListAdd _ _, not_mem_classListAdd_remove _ _ _ (by decide),
    validateFormField_markedOnly _, validateFormField_markedOnly _,
    validateFormField_markedOnly _⟩

/-- Claim C6, the two examples of the specification: with an empty name only
the name control is marked, with the e-mail `not-an-email` only the e-mail
control is marked; in both the submit aborts. -/
theorem handleSubmit_abort_witness :
    ((handleSubmit emptyNamePage).href = emptyNamePage.href ∧
    (handleSubmit emptyNamePage).statusText =
      "Please complete all required fields with valid information." ∧
    "error" ∈ (handleSubmit emptyNamePage).statusClasses ∧
    "success" ∉ (handleSubmit emptyNamePage).statusClasses ∧
    MarkedOnly emptyNamePage.nameField (handleSubmit emptyNamePage).nameField ∧
    MarkedOnly emptyNamePage.emailField (handleSubmit emptyNamePage).emailField ∧
    MarkedOnly emptyNamePage.messageField (handleSubmit emptyNamePage).messageField) ∧
    (handleSubmit emptyNamePage).nameField = some ⟨"", "", "text", some "true"⟩ ∧
    (handleSubmit emptyNamePage).emailField = some ⟨"a@b.co", "", "email", none⟩ ∧
    (handleSubmit emptyNamePage).messageField = some ⟨"Hello", "", "textarea", none⟩ ∧
    (handleSubmit badEmailPage).href = badEmailPage.href ∧
    (handleSubmit badEmailPage).nameField = some ⟨"Ada", "", "text", none⟩ ∧
    (handleSubmit badEmailPage).emailField = some ⟨"not-an-email", "", "email", some "true"⟩ ∧
    (handleSubmit badEmailPage).messageField = some ⟨"hi", "", "textarea", none⟩ :=
  ⟨handleSubmit_abort emptyNamePage (Or.inl (by decide)), by decide, by decide, by decide,
    (handleSubmit_abort badEmailPage (Or.inr (Or.inl (by decide)))).1, by decide, by decide,
    by decide⟩

/-- Claim C7: when the three validations succeed, the three controls exist,
the location becomes the mailto link with the fixed recipient and subject and
a body whose percent-decoding is the three lines `Name:`, `Email:`, `Message:`
with the submitted values unchanged; the status text is the success text with
class `success` and without class `error`; every control is reset to its
default value. -/
theorem handleSubmit_success (p : ContactPage)
    (hn : (validateFormField p.nameField).2 = true)
    (he : (validateFormField p.emailField).2 = true)
    (hm : (validateFormField p.messageField).2 = true) :
    ∃ fn fe fm body,
      p.nameField = some fn ∧ p.emailField = some fe ∧ p.messageField = some fm ∧
      (handleSubmit p).href =
        "mailto:hello@luminaverse.africa?subject=Luminaverse%20Collaboration&body=" ++ body ∧
      decodeURIComponent body =
        some ("Name: " ++ fn.value ++ "\nEmail: " ++ fe.value ++ "\nMessage: " ++ fm.value) ∧
      (handleSubmit p).statusText = "Message ready in your email client!" ∧
      "success" ∈ (handleSubmit p).statusClasses ∧
      "error" ∉ (handleSubmit p).statusClasses ∧
      (handleSubmit p).nameField = some { fn with value := fn.defaultValue, ariaInvalid := none } ∧
      (handleSubmit p).emailField = some { fe with value := fe.defaultValue, ariaInvalid := none } ∧
      (handleSubmit p).messageField =
        some { fm with value := fm.defaultValue, ariaInvalid := none } := by
  obtain ⟨fn, hfn⟩ := validateFormField_snd_true hn
  obtain ⟨fe, hfe⟩ := validateFormField_snd_true he
  obtain ⟨fm, hfm⟩ := validateFormField_snd_true hm
  have hc : (!(validateFormField p.nameField).2 || !(validateFormField p.emailField).2 ||
      !(validateFormField p.messageField).2) = false := by
    simp [hn, he, hm]
  have hsub : encodeURIComponent "Luminaverse Collaboration" = "Luminaverse%20Collaboration" := by
    decide
  rw [hfn] at hn
  rw [hfe] at he
  rw [hfm] at hm
  have vn := validateFormField_of_true fn hn
  have ve := validateFormField_of_true fe he
  have vm := validateFormField_of_true fm hm
  refine ⟨fn, fe, fm, encodeURIComponent (mailBody fn.value fe.value fm.value), hfn, hfe, hfm,
    ?_, ?_, ?_, ?_, ?_, ?_, ?_, ?_⟩
  · simp only [handleSubmit, hfn, hfe, hfm, vn, ve, vm, hsub, formDataGet]
    rfl
  · rw [decodeURIComponent_encodeURIComponent]
    rfl
  · simp only [handleSubmit, hfn, hfe, hfm, vn, ve, vm]
    rfl
  · simp only [handleSubmit, hfn, hfe, hfm, vn, ve, vm]
    exact mem_classListAdd _ _
  · simp only [handleSubmit, hfn, hfe, hfm, vn, ve, vm]
    exact not_mem_classListAdd_remove _ _ _ (by decide)
  · simp only [handleSubmit, hfn, hfe, hfm, vn, ve, vm]
    rfl
  · simp only [handleSubmit, hfn, hfe, hfm, vn, ve, vm]
    rfl
  · simp only [handleSubmit, hfn, hfe, hfm, vn, ve, vm]
    rfl

/-- Claim C7 on the example of the specification: name `Ada`, e-mail `a@b.co`,
message `Hello`. -/
theorem handleSubmit_success_witness :
    ((validateFormField validPage.nameField).2 = true ∧
     (validateFormField validPage.emailField).2 = true ∧
     (validateFormField validPage.messageField).2 = true) ∧
    ∃ fn fe fm body,
      validPage.nameField = some fn ∧ validPage.emailField = some fe ∧
      validPage.messageField = some fm ∧
      (handleSubmit validPage).href =
        "mailto:hello@luminaverse.africa?subject=Luminaverse%20Collaboration&body=" ++ body ∧
      decodeURIComponent body =
        some ("Name: " ++ fn.value ++ "\nEmail: " ++ fe.value ++ "\nMessage: " ++ fm.value) ∧
      (handleSubmit validPage).statusText = "Message ready in your email client!" ∧
      "success" ∈ (handleSubmit validPage).statusClasses ∧
      "error" ∉ (handleSubmit validPage).statusClasses ∧
      (handleSubmit validPage).nameField =
        some { fn with value := fn.defaultValue, ariaInvalid := none } ∧
      (handleSubmit validPage).emailField =
        some { fe with value := fe.defaultValue, ariaInvalid := none } ∧
      (handleSubmit validPage).messageField =
        some { fm with value := fm.defaultValue, ariaInvalid := none } :=
  ⟨⟨by decide, by decide, by decide⟩,
    handleSubmit_success validPage (by decide) (by decide) (by decide)⟩

/-! ## Theorems: typewriter -/

theorem ticks_inactive (k : Nat) (s : Typewriter) (h : s.intervalActive = false) :
    ticks k s = s := by
  induction k with
  | zero => rfl
  | succ k ih =>
    have : tick s = s := by simp [tick, h]
    simp [ticks, this, ih]

theorem ticks_spec (k : Nat) : ∀ s : Typewriter, s.intervalActive = true →
    s.index ≤ s.characters.length →
    (ticks k s).el.textContent = s.el.textContent ++ (s.characters.drop s.index).take k ∧
    (ticks k s).intervalActive = decide (s.index + k ≤ s.characters.length) := by
  induction k with
  | zero =>
    intro s hact hidx
    simp [ticks, hact, hidx]
  | succ k ih =>
    intro s hact hidx
    by_cases hlt : s.index < s.characters.length
    · have ht : tick s = { s with
          el := { s.el with textContent := s.el.textContent ++ [s.characters[s.index]] }
          index := s.index + 1 } := by
        simp [tick, hact, hlt]
      have h := ih (tick s) (by rw [ht]; exact hact) (by rw [ht]; exact hlt)
      rw [ht] at h
      simp only [ticks]
      rw [ht]
      refine ⟨?_, ?_⟩
      · rw [h.1]
        show (s.el.textContent ++ [s.characters[s.index]]) ++
            List.take k (List.drop (s.index + 1) s.characters)
          = s.el.textContent ++ List.take (k + 1) (List.drop s.index s.characters)
        rw [List.drop_eq_getElem_cons hlt, List.take_succ_cons]
        simp
      · rw [h.2]
        simp only [decide_eq_decide]
        omega
    · have ht : tick s = { s with intervalActive := false } := by
        simp [tick, hact, hlt]
      have hk := ticks_inactive k (tick s) (by rw [ht])
      have hd : s.characters.drop s.index = [] := List.drop_eq_nil_of_le (by omega)
      simp only [ticks]
      rw [hk, ht, hd]
      refine ⟨by simp, ?_⟩
      symm
      simp only [decide_eq_false_iff_not]
      omega

theorem initTypewriter_some (el : TypewriterEl) :
    ∃ s0, initTypewriter (some el) = some s0 ∧ s0.el.textContent = [] ∧
      s0.characters = el.dataText.getD [] ∧ s0.index = 0 ∧ s0.intervalActive = true := by
  refine ⟨_, rfl, rfl, ?_, rfl, rfl⟩
  show (match el.dataText with
      | some t => if t.isEmpty then [] else t
      | none => []) = el.dataText.getD []
  cases h : el.dataText with
  | none => rfl
  | some t => cases t <;> rfl

/-- Claim C8: `initTypewriter` clears the element; after `k` expiries of the
interval the content is the first `k` code units of the configured text (the
whole text once `k` reaches its length `n`); the timer is still set after `k`
expiries exactly when `k ≤ n`, so expiry `n + 1` stops it; an expiry changes
the content exactly when it is one of the first `n`. Without a `data-text`
attribute the text is empty and the content stays empty. -/
theorem typewriter_reveals (el : TypewriterEl) :
    ∃ s0, initTypewriter (some el) = some s0 ∧ s0.el.textContent = [] ∧
      ∀ k,
        (ticks k s0).el.textContent = (el.dataText.getD []).take k ∧
        (ticks k s0).intervalActive = decide (k ≤ (el.dataText.getD []).length) ∧
        ((ticks (k + 1) s0).el.textContent ≠ (ticks k s0).el.textContent ↔
          k < (el.dataText.getD []).length) ∧
        (el.dataText = none → (ticks k s0).el.textContent = []) := by
  obtain ⟨s0, h0, htc, hch, hidx, hact⟩ := initTypewriter_some el
  refine ⟨s0, h0, htc, fun k => ?_⟩
  have key : ∀ j, (ticks j s0).el.textContent = (el.dataText.getD []).take j ∧
      (ticks j s0).intervalActive = decide (j ≤ (el.dataText.getD []).length) := by
    intro j
    have h := ticks_spec j s0 hact (by omega)
    rw [htc, hch, hidx] at h
    simpa using h
  refine ⟨(key k).1, (key k).2, ?_, ?_⟩
  · rw [(key (k + 1)).1, (key k).1]
    constructor
    · intro hne
      by_contra hge
      apply hne
      rw [List.take_of_length_le (by omega), List.take_of_length_le (by omega)]
    · intro hlt heq
      have := congrArg List.length heq
      simp only [List.length_take] at this
      omega
  · intro hnone
    rw [(key k).1, hnone]
    simp

/-- Claim C8 on the example of the specification: the text `Hi!`. -/
theorem typewriter_reveals_hi :
    ∃ s0, initTypewriter (some hiElement) = some s0 ∧ s0.el.textContent = [] ∧
      ∀ k,
        (ticks k s0).el.textContent = (hiElement.dataText.getD []).take k ∧
        (ticks k s0).intervalActive = decide (k ≤ (hiElement.dataText.getD []).length) ∧
        ((ticks (k + 1) s0).el.textContent ≠ (ticks k s0).el.textContent ↔
          k < (hiElement.dataText.getD []).length) ∧
        (hiElement.dataText = none → (ticks k s0).el.textContent = []) :=
  typewriter_reveals hiElement

/-! ## Theorems: intersection-based reveal -/

theorem onEntry_other (d : Dom) (e : Entry) (x : Nat)
    (h : e.target = x → e.isIntersecting = false) : onEntry d e x = d x := by
  unfold onEntry
  split_ifs with hi
  · have hne : x ≠ e.target := fun hx => by simp [h hx.symm] at hi
    simp [setTarget, hne]
  · rfl

theorem onEntry_keeps (d : Dom) (e : Entry) (x : Nat)
    (h : "in-view" ∈ (d x).classList ∧ (d x).observed = false) :
    "in-view" ∈ (onEntry d e x).classList ∧ (onEntry d e x).observed = false := by
  unfold onEntry
  split_ifs with hi
  · by_cases hx : x = e.target
    · subst hx
      simp [setTarget, mem_classListAdd]
    · simp [setTarget, hx, h]
  · exact h

theorem onEntry_hit (d : Dom) (e : Entry) (x : Nat) (ht : e.target = x)
    (hi : e.isIntersecting = true) :
    "in-view" ∈ (onEntry d e x).classList ∧ (onEntry d e x).observed = false := by
  subst ht
  simp [onEntry, hi, setTarget, mem_classListAdd]

theorem observerCallback_quiet (entries : List Entry) (x : Nat) :
    ∀ d : Dom, Quiet x entries → observerCallback entries d x = d x := by
  induction entries with
  | nil => intro d _; rfl
  | cons e rest ih =>
    intro d hq
    have h1 : Quiet x rest := fun e1 he1 => hq e1 (List.mem_cons_of_mem _ he1)
    have h2 := onEntry_other d e x (hq e (List.mem_cons_self _ _))
    simp only [observerCallback, List.foldl_cons] at ih ⊢
    rw [ih (onEntry d e) h1, h2]

theorem observerCallback_keeps (entries : List Entry) (x : Nat) :
    ∀ d : Dom, ("in-view" ∈ (d x).classList ∧ (d x).observed = false) →
      "in-view" ∈ (observerCallback entries d x).classList ∧
        (observerCallback entries d x).observed = false := by
  induction entries with
  | nil => intro d h; exact h
  | cons e rest ih =>
    intro d h
    simp only [observerCallback, List.foldl_cons] at ih ⊢
    exact ih (onEntry d e) (onEntry_keeps d e x h)

theorem observerCallback_hit (entries : List Entry) (x : Nat) :
    ∀ d : Dom, (∃ e ∈ entries, e.target = x ∧ e.isIntersecting = true) →
      "in-view" ∈ (observerCallback entries d x).classList ∧
        (observerCallback entries d x).observed = false := by
  induction entries with
  | nil => intro d h; simp at h
  | cons e rest ih =>
    intro d h
    obtain ⟨e1, he1, ht, hi⟩ := h
    by_cases hhere : e.target = x ∧ e.isIntersecting = true
    · have hk := observerCallback_keeps rest x (onEntry d e) (onEntry_hit d e x hhere.1 hhere.2)
      simpa only [observerCallback, List.foldl_cons] using hk
    · rcases List.mem_cons.mp he1 with rfl | hmem
      · exact absurd ⟨ht, hi⟩ hhere
      · have hk := ih (onEntry d e) ⟨e1, hmem, ht, hi⟩
        simpa only [observerCallback, List.foldl_cons] using hk

theorem deliver_cons (entries : List Entry) (rest : List (List Entry)) (d : Dom) :
    deliver (entries :: rest) d = deliver rest (observerCallback entries d) := rfl

theorem deliver_append (pre post : List (List Entry)) (d : Dom) :
    deliver (pre ++ post) d = deliver post (deliver pre d) := by
  simp [deliver, List.foldl_append]

theorem deliver_quiet (batches : List (List Entry)) (x : Nat) :
    ∀ d : Dom, (∀ b ∈ batches, Quiet x b) → deliver batches d x = d x := by
  induction batches with
  | nil => intro d _; rfl
  | cons b rest ih =>
    intro d hq
    rw [deliver_cons, ih _ (fun b1 hb1 => hq b1 (List.mem_cons_of_mem _ hb1)),
      observerCallback_quiet b x d (hq b (List.mem_cons_self _ _))]

theorem deliver_keeps (batches : List (List Entry)) (x : Nat) :
    ∀ d : Dom, ("in-view" ∈ (d x).classList ∧ (d x).observed = false) →
      "in-view" ∈ (deliver batches d x).classList ∧ (deliver batches d x).observed = false := by
  induction batches with
  | nil => intro d h; exact h
  | cons b rest ih =>
    intro d h
    rw [deliver_cons]
    exact ih _ (observerCallback_keeps b x d h)

theorem markerGains_quiet (batches : List (List Entry)) (x : Nat) :
    ∀ d : Dom, (∀ b ∈ batches, Quiet x b) → markerGains x batches d = 0 := by
  induction batches with
  | nil => intro d _; rfl
  | cons b rest ih =>
    intro d hq
    have h1 := observerCallback_quiet b x d (hq b (List.mem_cons_self _ _))
    have h2 := ih (observerCallback b d) (fun b1 hb1 => hq b1 (List.mem_cons_of_mem _ hb1))
    simp only [markerGains, h2, hasMarker, h1]
    simp

theorem markerGains_marked (batches : List (List Entry)) (x : Nat) :
    ∀ d : Dom, ("in-view" ∈ (d x).classList ∧ (d x).observed = false) →
      markerGains x batches d = 0 := by
  induction batches with
  | nil => intro d _; rfl
  | cons b rest ih =>
    intro d h
    have h2 := ih (observerCallback b d) (observerCallback_keeps b x d h)
    simp only [markerGains, h2, hasMarker, h.1]
    simp

theorem markerGains_append (pre post : List (List Entry)) (x : Nat) :
    ∀ d : Dom, markerGains x (pre ++ post) d
      = markerGains x pre d + markerGains x post (deliver pre d) := by
  induction pre with
  | nil => intro d; simp [markerGains, deliver]
  | cons b rest ih =>
    intro d
    have h := ih (observerCallback b d)
    show _ + markerGains x (rest ++ post) (observerCallback b d)
      = (_ + markerGains x rest (observerCallback b d))
        + markerGains x post (deliver rest (observerCallback b d))
    rw [h]
    omega

/-- Claim C10: for an observed element that does not yet carry `in-view`.
While no notification reports it as intersecting it stays without the marker
and observed. At the first notification that reports it as intersecting it
gains the marker and is unobserved, and whatever notifications follow it
keeps the marker and stays unobserved; over the whole sequence the marker is
gained exactly once. -/
theorem reveal_once (elements : List Nat) (d : Dom) (x : Nat) (hx : x ∈ elements)
    (h0 : "in-view" ∉ (d x).classList) :
    (∀ batches, (∀ b ∈ batches, Quiet x b) →
      "in-view" ∉ (deliver batches (initIntersectionObserver elements d) x).classList ∧
      (deliver batches (initIntersectionObserver elements d) x).observed = true ∧
      markerGains x batches (initIntersectionObserver elements d) = 0) ∧
    (∀ pre b post, (∀ b1 ∈ pre, Quiet x b1) →
      (∃ e ∈ b, e.target = x ∧ e.isIntersecting = true) →
      "in-view" ∈ (deliver (pre ++ [b]) (initIntersectionObserver elements d) x).classList ∧
      (deliver (pre ++ [b]) (initIntersectionObserver elements d) x).observed = false ∧
      "in-view" ∈
        (deliver (pre ++ b :: post) (initIntersectionObserver elements d) x).classList ∧
      (deliver (pre ++ b :: post) (initIntersectionObserver elements d) x).observed = false ∧
      markerGains x (pre ++ b :: post) (initIntersectionObserver elements d) = 1) := by
  have hinit : initIntersectionObserver elements d x = { d x with observed := true } := by
    simp [initIntersectionObserver, hx]
  have hq : ∀ batches, (∀ b ∈ batches, Quiet x b) →
      deliver batches (initIntersectionObserver elements d) x = { d x with observed := true } := by
    intro batches hb
    rw [deliver_quiet batches x _ hb, hinit]
  constructor
  · intro batches hb
    rw [hq batches hb]
    exact ⟨h0, rfl, markerGains_quiet batches x _ hb⟩
  · intro pre b post hpre hb
    have hpre0 := hq pre hpre
    have hhit := observerCallback_hit b x (deliver pre (initIntersectionObserver elements d)) hb
    have h1 : deliver (pre ++ [b]) (initIntersectionObserver elements d)
        = observerCallback b (deliver pre (initIntersectionObserver elements d)) := by
      rw [deliver_append]; rfl
    have h2 : deliver (pre ++ b :: post) (initIntersectionObserver elements d)
        = deliver post (observerCallback b (deliver pre (initIntersectionObserver elements d))) := by
      rw [deliver_append, deliver_cons]
    have hkeep := deliver_keeps post x _ hhit
    refine ⟨by rw [h1]; exact hhit.1, by rw [h1]; exact hhit.2, by rw [h2]; exact hkeep.1,
      by rw [h2]; exact hkeep.2, ?_⟩
    rw [markerGains_append, markerGains_quiet pre x _ hpre]
    have hno : hasMarker (deliver pre (initIntersectionObserver elements d)) x = false := by
      simp [hasMarker, hpre0, h0]
    have hyes : hasMarker
        (observerCallback b (deliver pre (initIntersectionObserver elements d))) x = true := by
      simp [hasMarker, hhit.1]
    simp only [markerGains, hno, hyes, markerGains_marked post x _ hhit]
    simp

/-- Claim C10 on a concrete page: element 1 is observed and bare. -/
theorem reveal_once_witness :
    (1 ∈ [0, 1, 2] ∧ "in-view" ∉ (blankDom 1).classList) ∧
    ((∀ batches, (∀ b ∈ batches, Quiet 1 b) →
      "in-view" ∉ (deliver batches (initIntersectionObserver [0, 1, 2] blankDom) 1).classList ∧
      (deliver batches (initIntersectionObserver [0, 1, 2] blankDom) 1).observed = true ∧
      markerGains 1 batches (initIntersectionObserver [0, 1, 2] blankDom) = 0) ∧
    (∀ pre b post, (∀ b1 ∈ pre, Quiet 1 b1) →
      (∃ e ∈ b, e.target = 1 ∧ e.isIntersecting = true) →
      "in-view" ∈ (deliver (pre ++ [b]) (initIntersectionObserver [0, 1, 2] blankDom) 1).classList ∧
      (deliver (pre ++ [b]) (initIntersectionObserver [0, 1, 2] blankDom) 1).observed = false ∧
      "in-view" ∈
        (deliver (pre ++ b :: post) (initIntersectionObserver [0, 1, 2] blankDom) 1).classList ∧
      (deliver (pre ++ b :: post) (initIntersectionObserver [0, 1, 2] blankDom) 1).observed = false ∧
      markerGains 1 (pre ++ b :: post) (initIntersectionObserver [0, 1, 2] blankDom) = 1)) :=
  ⟨⟨by decide, by decide⟩, reveal_once [0, 1, 2] blankDom 1 (by decide) (by decide)⟩

/-! ## Theorems: timeline progress -/

theorem forEachItem_spec (thr : ℚ) (tops : List ℚ) :
    ∀ (index : Nat) (vi : Int),
      ((∀ i (hi : i < tops.length), ¬ tops[i] < thr) ∧ forEachItem thr tops index vi = vi) ∨
      (∃ k, ∃ hk : k < tops.length, tops[k] < thr ∧
        (∀ j (hj : j < tops.length), k < j → ¬ tops[j] < thr) ∧
        forEachItem thr tops index vi = ((index + k : Nat) : Int)) := by
  induction tops with
  | nil =>
    intro index vi
    exact Or.inl ⟨fun i hi => absurd hi (by simp), rfl⟩
  | cons top rest ih =>
    intro index vi
    rcases ih (index + 1) (if top < thr then (index : Int) else vi) with ⟨hnone, hr⟩ | hsome
    · by_cases htop : top < thr
      · refine Or.inr ⟨0, by simp, by simpa using htop, ?_, ?_⟩
        · intro j hj hlt
          obtain ⟨j1, rfl⟩ : ∃ j1, j = j1 + 1 := ⟨j - 1, by omega⟩
          simpa using hnone j1 (by simpa using hj)
        · simp only [htop, if_true] at hr
          simp only [forEachItem, htop, if_true, hr]
          simp
      · refine Or.inl ⟨?_, ?_⟩
        · intro i hi
          rcases i with _ | i1
          · simpa using htop
          · simpa using hnone i1 (by simpa using hi)
        · simp only [htop, if_false] at hr
          simp only [forEachItem, htop, if_false, hr]
    · obtain ⟨k, hk, hq, hlast, hr⟩ := hsome
      refine Or.inr ⟨k + 1, by simpa using hk, by simpa using hq, ?_, ?_⟩
      · intro j hj hlt
        obtain ⟨j1, rfl⟩ : ∃ j1, j = j1 + 1 := ⟨j - 1, by omega⟩
        simpa using hlast j1 (by simpa using hj) (by omega)
      · simp only [forEachItem, hr]
        push_cast
        ring

theorem roundHalfEven_le (a b c : Nat) (hb : 0 < b) (h : a ≤ c * b) :
    roundHalfEven a b ≤ c := by
  have hq : a / b ≤ c := Nat.div_le_of_le_mul (by rw [Nat.mul_comm]; exact h)
  have hdm : b * (a / b) + a % b = a := Nat.div_add_mod a b
  have hlt : a % b < b := Nat.mod_lt a hb
  by_cases hqc : a / b = c
  · have hr : a % b = 0 := by
      rw [hqc] at hdm
      have : b * c = c * b := Nat.mul_comm b c
      omega
    simp only [roundHalfEven, hr, hqc]
    simp [hb]
  · have hq1 : a / b + 1 ≤ c := by omega
    unfold roundHalfEven
    simp only
    split_ifs <;> omega

theorem floorLog2Aux_le (fuel : Nat) :
    ∀ n, n ≤ fuel → 0 < n → 2 ^ floorLog2Aux fuel n ≤ n := by
  induction fuel with
  | zero => intro n h1 h2; omega
  | succ fuel ih =>
    intro n h1 h2
    unfold floorLog2Aux
    split_ifs with hn
    · simpa using h2
    · have := ih (n / 2) (by omega) (by omega)
      rw [pow_succ]
      omega

theorem floorLog2Aux_lt (fuel : Nat) :
    ∀ n, n ≤ fuel → n < 2 ^ (floorLog2Aux fuel n + 1) := by
  induction fuel with
  | zero => intro n h1; simp [floorLog2Aux]; omega
  | succ fuel ih =>
    intro n h1
    unfold floorLog2Aux
    split_ifs with hn
    · simpa using hn
    · have := ih (n / 2) (by omega)
      rw [pow_succ]
      omega

theorem floorLog2_mono_of_le (a b : Nat) (ha : 0 < a) (hab : a ≤ b) :
    floorLog2 a ≤ floorLog2 b := by
  have h1 : 2 ^ floorLog2 a ≤ a := floorLog2Aux_le a a (le_refl _) ha
  have h2 : b < 2 ^ (floorLog2 b + 1) := floorLog2Aux_lt b b (le_refl _)
  have h3 : 2 ^ floorLog2 a < 2 ^ (floorLog2 b + 1) := by omega
  have := (Nat.pow_lt_pow_iff_right (by norm_num : 1 < 2)).mp h3
  omega

theorem doubleParts_le (a b : Nat) (ha : 0 < a) (hab : a ≤ b) :
    (doubleParts a b).1 ≤ (doubleParts a b).2 := by
  have hl := floorLog2_mono_of_le a b ha hab
  have hb : 0 < b := by omega
  unfold doubleParts
  simp only
  have hdown : ∀ c, floorLog2 a - (52 + floorLog2 b + c) = 0 := by intro c; omega
  rw [hdown]
  simp only [pow_zero, Nat.mul_one]
  apply roundHalfEven_le _ _ _ hb
  rw [Nat.mul_comm]
  exact Nat.mul_le_mul_left _ hab

theorem doubleOfRatio_nonneg (a b : Nat) : 0 ≤ doubleOfRatio a b := by
  unfold doubleOfRatio
  split_ifs
  · exact le_refl _
  · positivity

theorem doubleOfRatio_le_one (a b : Nat) (hab : a ≤ b) : doubleOfRatio a b ≤ 1 := by
  unfold doubleOfRatio
  split_ifs with h0
  · norm_num
  · have h := doubleParts_le a b (by omega) hab
    have hq : ((doubleParts a b).1 : ℚ) ≤ ((doubleParts a b).2 : ℚ) := by exact_mod_cast h
    have hpos : (0 : ℚ) < ((doubleParts a b).2 : ℚ) := by
      have : 0 < (doubleParts a b).2 := by
        unfold doubleParts
        simp only
        positivity
      exact_mod_cast this
    rw [div_le_one hpos]
    exact hq

theorem scale_le (a b la L : Nat) (key : 2 ^ la * b ≤ a * 2 ^ L) :
    2 ^ 52 * (b * 2 ^ (la - (52 + L))) ≤ a * 2 ^ ((52 + L) - la) := by
  by_cases hle : la ≤ 52 + L
  · obtain ⟨d, hd⟩ : ∃ d, 52 + L = la + d := ⟨52 + L - la, by omega⟩
    have e1 : la - (52 + L) = 0 := by omega
    have e2 : 52 + L - la = d := by omega
    rw [e1, e2]
    have hp : 2 ^ 52 * 2 ^ L = 2 ^ la * 2 ^ d := by rw [← pow_add, ← pow_add, hd]
    have h1 : 2 ^ la * (2 ^ 52 * (b * 2 ^ 0)) ≤ 2 ^ la * (a * 2 ^ d) := by
      calc 2 ^ la * (2 ^ 52 * (b * 2 ^ 0)) = 2 ^ 52 * (2 ^ la * b) := by ring
        _ ≤ 2 ^ 52 * (a * 2 ^ L) := Nat.mul_le_mul_left _ key
        _ = a * (2 ^ 52 * 2 ^ L) := by ring
        _ = a * (2 ^ la * 2 ^ d) := by rw [hp]
        _ = 2 ^ la * (a * 2 ^ d) := by ring
    exact Nat.le_of_mul_le_mul_left h1 (by positivity)
  · obtain ⟨d, hd⟩ : ∃ d, la = 52 + L + d := ⟨la - (52 + L), by omega⟩
    have e1 : la - (52 + L) = d := by omega
    have e2 : 52 + L - la = 0 := by omega
    rw [e1, e2]
    have hp : 2 ^ la = 2 ^ L * (2 ^ 52 * 2 ^ d) := by
      rw [hd, pow_add, pow_add]; ring
    have h1 : 2 ^ L * (2 ^ 52 * (b * 2 ^ d)) ≤ 2 ^ L * (a * 2 ^ 0) := by
      calc 2 ^ L * (2 ^ 52 * (b * 2 ^ d)) = (2 ^ L * (2 ^ 52 * 2 ^ d)) * b := by ring
        _ = 2 ^ la * b := by rw [hp]
        _ ≤ a * 2 ^ L := key
        _ = 2 ^ L * (a * 2 ^ 0) := by ring
    exact Nat.le_of_mul_le_mul_left h1 (by positivity)

theorem doubleParts_scaled (a b : Nat) (ha : 0 < a) :
    ∃ up down : Nat,
      doubleParts a b = (roundHalfEven (a * 2 ^ up) (b * 2 ^ down) * 2 ^ down, 2 ^ up) ∧
      2 ^ 52 * (b * 2 ^ down) ≤ a * 2 ^ up := by
  have p1 : 2 ^ floorLog2 a ≤ a := floorLog2Aux_le a a (le_refl _) ha
  have p4 : b < 2 ^ (floorLog2 b + 1) := floorLog2Aux_lt b b (le_refl _)
  by_cases hc : 2 ^ floorLog2 a * b ≤ a * 2 ^ floorLog2 b
  · refine ⟨52 + floorLog2 b - floorLog2 a, floorLog2 a - (52 + floorLog2 b), ?_,
      scale_le a b _ _ hc⟩
    simp [doubleParts, hc]
  · have key : 2 ^ floorLog2 a * b ≤ a * 2 ^ (floorLog2 b + 1) := by
      calc 2 ^ floorLog2 a * b ≤ 2 ^ floorLog2 a * 2 ^ (floorLog2 b + 1) :=
            Nat.mul_le_mul_left _ (le_of_lt p4)
        _ ≤ a * 2 ^ (floorLog2 b + 1) := Nat.mul_le_mul_right _ p1
    refine ⟨52 + (floorLog2 b + 1) - floorLog2 a, floorLog2 a - (52 + (floorLog2 b + 1)), ?_,
      scale_le a b _ _ key⟩
    simp [doubleParts, hc, Nat.add_assoc]

theorem roundHalfEven_near (a b : Nat) (hb : 0 < b) :
    2 * (roundHalfEven a b * b) ≤ 2 * a + b ∧ 2 * a ≤ 2 * (roundHalfEven a b * b) + b := by
  have hdm : b * (a / b) + a % b = a := Nat.div_add_mod a b
  have hlt : a % b < b := Nat.mod_lt a hb
  have e0 : a / b * b = b * (a / b) := Nat.mul_comm _ _
  have e1 : (a / b + 1) * b = b * (a / b) + b := by ring
  unfold roundHalfEven
  simp only
  split_ifs <;> first | (rw [e0]; omega) | (rw [e1]; omega)

/-- The rounding is correct to half a unit in the last place: the double
differs from the exact quotient by at most the quotient over `2^53`. -/
theorem doubleOfRatio_close (a b : Nat) (ha : 0 < a) (hb : 0 < b) :
    |doubleOfRatio a b - (a : ℚ) / (b : ℚ)| ≤ (a : ℚ) / (b : ℚ) / 2 ^ 53 := by
  obtain ⟨up, down, hparts, hscale⟩ := doubleParts_scaled a b ha
  have hB : 0 < b * 2 ^ down := by positivity
  obtain ⟨hn1, hn2⟩ := roundHalfEven_near (a * 2 ^ up) (b * 2 ^ down) hB
  have ha0 : a ≠ 0 := by omega
  have haq : (0 : ℚ) < (a : ℚ) := by exact_mod_cast ha
  have hbq : (0 : ℚ) < (b : ℚ) := by exact_mod_cast hb
  have hU : (0 : ℚ) < (2 : ℚ) ^ up := by positivity
  have hD : (0 : ℚ) < (2 : ℚ) ^ down := by positivity
  have q1 : (2 : ℚ) * ((roundHalfEven (a * 2 ^ up) (b * 2 ^ down) : ℚ) * ((b : ℚ) * 2 ^ down))
      ≤ 2 * ((a : ℚ) * 2 ^ up) + (b : ℚ) * 2 ^ down := by exact_mod_cast hn1
  have q2 : (2 : ℚ) * ((a : ℚ) * 2 ^ up)
      ≤ 2 * ((roundHalfEven (a * 2 ^ up) (b * 2 ^ down) : ℚ) * ((b : ℚ) * 2 ^ down))
        + (b : ℚ) * 2 ^ down := by exact_mod_cast hn2
  have q3 : (2 : ℚ) ^ 52 * ((b : ℚ) * 2 ^ down) ≤ (a : ℚ) * 2 ^ up := by exact_mod_cast hscale
  have hval : doubleOfRatio a b
      = (roundHalfEven (a * 2 ^ up) (b * 2 ^ down) : ℚ) * 2 ^ down / 2 ^ up := by
    simp only [doubleOfRatio, ha0, if_false, hparts]
    push_cast
    rfl
  rw [hval]
  generalize (roundHalfEven (a * 2 ^ up) (b * 2 ^ down) : ℚ) = m at q1 q2 ⊢
  generalize (2 : ℚ) ^ up = u at hU q1 q2 q3 ⊢
  generalize (2 : ℚ) ^ down = d at hD q1 q2 q3 ⊢
  have hbu : (0 : ℚ) < (b : ℚ) * u := by positivity
  rw [abs_le]
  constructor
  · rw [neg_le_sub_iff_le_add, div_div, div_add_div _ _ (by positivity) (by positivity),
      div_le_div_iff₀ (by positivity) (by positivity)]
    nlinarith [mul_pos hbq hU, mul_pos hbq hD, mul_pos haq hU]
  · rw [sub_le_iff_le_add, div_div, div_add_div _ _ (by positivity) (by positivity),
      div_le_div_iff₀ (by positivity) (by positivity)]
    nlinarith [mul_pos hbq hU, mul_pos hbq hD, mul_pos haq hU]

theorem timesPointSix_303 : timesPointSix 303 = 6396518845749657 / 35184372088832 := by
  have hp : doubleParts (303 * 5404319552844595) (2 ^ 53)
      = (6396518845749657, 35184372088832) := by decide
  unfold timesPointSix doubleOfRatio
  rw [hp]
  norm_num

/-- Claim C9, as the code has it: for a list of top edges and any viewport
height `h`, with the threshold `min(h * 0.6, h - 120)` where the
product is the one of double arithmetic (the exact product with the double
`0.6`, rounded to the nearest double): the progress written is 0 when no item
lies above the threshold, it is the double quotient of `k + 1` by `n` when `k`
is the highest index of an item above the threshold, and it always lies
between 0 and 1. -/
theorem updateProgress_spec (tops : List ℚ) (h : Nat) :
    ((∀ i (hi : i < tops.length), ¬ tops[i] < min (timesPointSix h) ((h : ℚ) - 120)) →
      updateProgress tops h = 0) ∧
    (∀ k (hk : k < tops.length), tops[k] < min (timesPointSix h) ((h : ℚ) - 120) →
      (∀ j (hj : j < tops.length), k < j → ¬ tops[j] < min (timesPointSix h) ((h : ℚ) - 120)) →
      updateProgress tops h = doubleOfRatio (k + 1) tops.length) ∧
    0 ≤ updateProgress tops h ∧ updateProgress tops h ≤ 1 := by
  rcases forEachItem_spec (visibilityThreshold h) tops 0 (-1) with ⟨hnone, hr⟩ | hsome
  · have hval : updateProgress tops h = 0 := by
      simp [updateProgress, hr]
    refine ⟨fun _ => hval, ?_, by rw [hval], by rw [hval]; norm_num⟩
    intro k hk hq _
    exact absurd hq (hnone k hk)
  · obtain ⟨k0, hk0, hq0, hlast0, hr⟩ := hsome
    have hval : updateProgress tops h = doubleOfRatio (k0 + 1) tops.length := by
      have hge : ((0 + k0 : Nat) : Int) ≥ 0 := by omega
      have hn : (((0 + k0 : Nat) : Int) + 1).toNat = k0 + 1 := by omega
      simp only [updateProgress, hr, hge, if_true, hn]
    refine ⟨?_, ?_, ?_, ?_⟩
    · intro hall
      exact absurd hq0 (hall k0 hk0)
    · intro k hk hq hlast
      have hkk : k = k0 := by
        rcases Nat.lt_trichotomy k k0 with hlt | heq | hgt
        · exact absurd hq0 (hlast k0 hk0 hlt)
        · exact heq
        · exact absurd hq (hlast0 k hk hgt)
      rw [hval, hkk]
    · rw [hval]
      exact doubleOfRatio_nonneg _ _
    · rw [hval]
      exact doubleOfRatio_le_one _ _ hk0

/-- Claim C9 on a concrete timeline: three items in a viewport of height
800. -/
theorem updateProgress_spec_witness :
    ((∀ i (hi : i < ([100, 200, 900] : List ℚ).length),
        ¬ ([100, 200, 900] : List ℚ)[i] < min (timesPointSix 800) (((800 : Nat) : ℚ) - 120)) →
      updateProgress [100, 200, 900] 800 = 0) ∧
    (∀ k (hk : k < ([100, 200, 900] : List ℚ).length),
      ([100, 200, 900] : List ℚ)[k] < min (timesPointSix 800) (((800 : Nat) : ℚ) - 120) →
      (∀ j (hj : j < ([100, 200, 900] : List ℚ).length), k < j →
        ¬ ([100, 200, 900] : List ℚ)[j] < min (timesPointSix 800) (((800 : Nat) : ℚ) - 120)) →
      updateProgress [100, 200, 900] 800
        = doubleOfRatio (k + 1) ([100, 200, 900] : List ℚ).length) ∧
    0 ≤ updateProgress [100, 200, 900] 800 ∧ updateProgress [100, 200, 900] 800 ≤ 1 :=
  updateProgress_spec [100, 200, 900] 800

/-- Claim C9, counterexample: in a viewport of height 303 an item whose top
edge is the double `181.79999999999998` lies above `min(0.6 * 303, 303 - 120)`
read in exact arithmetic, so the claim has the progress 1 written; the code
computes `303 * 0.6` as that very double, the item does not qualify, and the
progress written is 0. -/
theorem updateProgress_double_threshold :
    ([6396518845749657 / 35184372088832] : List ℚ)[0]
        < min ((6 / 10 : ℚ) * 303) (303 - 120) ∧
    updateProgress [6396518845749657 / 35184372088832] 303 = 0 ∧
    updateProgress [6396518845749657 / 35184372088832] 303 ≠ ((0 : ℚ) + 1) / 1 := by
  have hthr : visibilityThreshold 303 = 6396518845749657 / 35184372088832 := by
    unfold visibilityThreshold
    rw [timesPointSix_303]
    norm_num
  have hval : updateProgress [6396518845749657 / 35184372088832] 303 = 0 := by
    simp [updateProgress, forEachItem, hthr]
  refine ⟨?_, hval, ?_⟩
  · norm_num
  · rw [hval]
    norm_num

end Script
